import Mathlib

/-!
Verification of the steganography codec in `src/main.cpp`.

The core of the program is the pair `Steganography::encode` /
`Steganography::decode`: an LSB codec that hides a payload byte stream in
the least-significant bits of a pixel buffer's RGB channel bytes, prefixed
by a 32-bit length header embedded LSB-first.

The embedding below models the pixel buffer exactly as SFML stores it: a
row-major list of RGB pixels where `getPixel x y` reads flat pixel index
`x + y * width` (out-of-range reads, undefined behaviour in the C++ code,
are modelled by a default pixel; out-of-range writes as no-ops).  The
encode / decode loop bodies are transcribed statement by statement from
`src/main.cpp`.
-/

set_option maxRecDepth 8192

namespace Steganography

/-- One RGB pixel: three 8-bit channel bytes (`sf::Color`, alpha untouched
by the codec and omitted).  Channel values are natural numbers; the 8-bit
range `< 256` is an invariant of real buffers and appears as a hypothesis
where a claim needs it. -/
structure Color where
  r : Nat
  g : Nat
  b : Nat
deriving DecidableEq, Repr

/-- A pixel buffer (`sf::Image`): width, height, and the pixels in SFML's
row-major order, pixel `(x, y)` at flat index `x + y * width`. -/
structure Image where
  width : Nat
  height : Nat
  pixels : List Color
deriving DecidableEq, Repr

/-- `sf::Image::getPixel` — reads the pixel at flat index `x + y * width`.
Reads outside the buffer are undefined behaviour in C++; the model returns
a default black pixel. -/
def Image.getPixel (img : Image) (x y : Nat) : Color :=
  img.pixels.getD (x + y * img.width) ⟨0, 0, 0⟩

/-- `sf::Image::setPixel` — overwrites the pixel at flat index
`x + y * width`; a write outside the buffer is a no-op in the model. -/
def Image.setPixel (img : Image) (x y : Nat) (c : Color) : Image :=
  { img with pixels := img.pixels.set (x + y * img.width) c }

/-- `embedBit` (main.cpp lines 17-23): set the LSB of a channel byte.
`colorChannel |= 1` sets it; `colorChannel &= ~1` clears it (for an 8-bit
value this is masking with `0xFE`). -/
def embedBit (colorChannel : Nat) (bit : Bool) : Nat :=
  if bit then colorChannel ||| 1 else colorChannel &&& 0xFE

/-- `extractBit` (main.cpp lines 26-28): the LSB of a channel byte,
converted to `bool` as in C++ (nonzero means true). -/
def extractBit (colorChannel : Nat) : Bool :=
  colorChannel &&& 1 != 0

/-- The C++ idiom `(value >> i) & 1` converted to `bool`, used for both
the size header (line 65) and the payload bytes (line 85). -/
def bitOf (value i : Nat) : Bool :=
  (value >>> i) &&& 1 != 0

/-- Body of one iteration of the embedding loops (main.cpp lines 59-75 and
78-96): locate the slot for `bitIndex`, read the pixel, embed the bit into
the channel selected by `bitIndex % 3`, write the pixel back. -/
def embedAt (img : Image) (bitIndex : Nat) (bit : Bool) : Image :=
  let x := (bitIndex / 3) % img.width
  let y := (bitIndex / 3) / img.width
  let color := img.getPixel x y
  let color :=
    match bitIndex % 3 with
    | 0 => { color with r := embedBit color.r bit }
    | 1 => { color with g := embedBit color.g bit }
    | _ => { color with b := embedBit color.b bit }
  img.setPixel x y color

/-- Embed a list of bits at consecutive slot indices starting at
`bitIndex` — the common shape of the two encoder loops, which advance
`bitIndex` by one after every embedded bit. -/
def embedBits (img : Image) (bitIndex : Nat) : List Bool → Image
  | [] => img
  | bit :: rest => embedBits (embedAt img bitIndex bit) (bitIndex + 1) rest

/-- The 32 bits of the size header, least-significant first (main.cpp
lines 59-75: `bool bit = (secretSize >> i) & 1` for `i = 0..31`). -/
def sizeBits (secretSize : Nat) : List Bool :=
  (List.range 32).map (bitOf secretSize)

/-- The 8 bits of one payload byte, least-significant first (main.cpp
lines 78-96: `bool bit = (byte >> i) & 1` for `i = 0..7`). -/
def byteBits (byte : Nat) : List Bool :=
  (List.range 8).map (bitOf byte)

/-- Outcome of the encoder core: either the capacity error (main.cpp line
52) or the mutated pixel buffer.  The surrounding file I/O (loading the
carrier, reading the secret file, saving the output) is a collaborator
outside the codec core. -/
inductive EncodeResult where
  | insufficientCapacity
  | ok (image : Image)
deriving DecidableEq, Repr

/-- `Steganography::encode` core (main.cpp lines 43-96).
`uint32_t secretSize = secretData.size()` truncates the payload length to
32 bits, modelled by `% 2 ^ 32`.  `capacity = W * H * 3` and
`requiredBits = 32 + secretSize * 8` are computed in 64-bit arithmetic,
wide enough for any allocatable image, so they are modelled exactly.  If
the capacity check fails the function returns before any mutation;
otherwise it embeds the 32 size bits and then every byte of `secretData`
(all of them, not `secretSize` many), one bit per slot. -/
def encode (carrierImage : Image) (secretData : List Nat) : EncodeResult :=
  let secretSize := secretData.length % 2 ^ 32
  let capacity := carrierImage.width * carrierImage.height * 3
  let requiredBits := 32 + secretSize * 8
  if capacity < requiredBits then
    EncodeResult.insufficientCapacity
  else
    EncodeResult.ok
      (embedBits carrierImage 0 (sizeBits secretSize ++ secretData.flatMap byteBits))

/-- Body of one iteration of the extraction loops (main.cpp lines 117-128
and 150-162): locate the slot for `bitIndex`, read the pixel, extract the
LSB of the channel selected by `bitIndex % 3`. -/
def extractAt (img : Image) (bitIndex : Nat) : Bool :=
  let x := (bitIndex / 3) % img.width
  let y := (bitIndex / 3) / img.width
  let color := img.getPixel x y
  match bitIndex % 3 with
  | 0 => extractBit color.r
  | 1 => extractBit color.g
  | _ => extractBit color.b

/-- Assemble an unsigned value from `count` consecutive slot LSBs starting
at slot `start`, least-significant first: the accumulator pattern
`value |= (1 << i)` of main.cpp lines 130-132 and 164-166. -/
def extractNum (img : Image) (start count : Nat) : Nat :=
  (List.range count).foldl
    (fun acc i => if extractAt img (start + i) then acc ||| 1 <<< i else acc) 0

/-- Outcome of the decoder core: the invalid-length error (main.cpp line
139), the zero-length warning (line 142, a non-error informational result
with an empty byte sequence), or the extracted payload bytes. -/
inductive DecodeResult where
  | invalidLength
  | emptyPayload
  | ok (data : List Nat)
deriving DecidableEq, Repr

/-- `Steganography::decode` core (main.cpp lines 112-170): read the 32-bit
size from the first 32 slot LSBs, reject sizes exceeding the image's own
capacity, report a zero size as the empty-payload outcome, otherwise
assemble `secretSize` bytes of 8 bits each from the following slots. -/
def decode (stegoImage : Image) : DecodeResult :=
  let secretSize := extractNum stegoImage 0 32
  let capacity := stegoImage.width * stegoImage.height * 3
  if secretSize * 8 + 32 > capacity then
    DecodeResult.invalidLength
  else if secretSize = 0 then
    DecodeResult.emptyPayload
  else
    DecodeResult.ok
      ((List.range secretSize).map (fun j => extractNum stegoImage (32 + 8 * j) 8))

/-- The slot indices at which `encode` calls `setPixel`, read off the
control flow of main.cpp lines 47-96: none when the capacity check fails
(the check precedes both loops), otherwise slots `0 .. 32 + 8·L - 1`
where `L` is the number of payload bytes (the payload loop iterates over
every byte of `secretData`). -/
def encodeWrites (carrierImage : Image) (secretData : List Nat) : List Nat :=
  let secretSize := secretData.length % 2 ^ 32
  let capacity := carrierImage.width * carrierImage.height * 3
  if capacity < 32 + secretSize * 8 then []
  else List.range (32 + 8 * secretData.length)

/-- The slot indices at which `decode` calls `getPixel`, read off the
control flow of main.cpp lines 113-170: slots `0..31` are always read by
the header loop (before any validity check), and the payload loop then
reads slots `32 .. 32 + 8·secretSize - 1` unless one of the two checks
returned early. -/
def decodeAccesses (stegoImage : Image) : List Nat :=
  let secretSize := extractNum stegoImage 0 32
  let capacity := stegoImage.width * stegoImage.height * 3
  List.range 32 ++
    (if secretSize * 8 + 32 > capacity then []
     else if secretSize = 0 then []
     else (List.range (8 * secretSize)).map (fun j => 32 + j))

/-- View of channel `k` of a pixel, with the codec's channel numbering
red = 0, green = 1, blue = 2. -/
def Color.chan (c : Color) : Nat → Nat
  | 0 => c.r
  | 1 => c.g
  | _ => c.b

/-- Overwrite channel `k` of a pixel, same numbering as `Color.chan`. -/
def Color.setChan (c : Color) (k v : Nat) : Color :=
  match k with
  | 0 => { c with r := v }
  | 1 => { c with g := v }
  | _ => { c with b := v }

/-- The channel byte stored at slot index `i`: channel `i % 3` of the
pixel at flat index `i / 3`.  This is the observable the frame-effect and
wire-layout claims speak about. -/
def Image.chanAt (img : Image) (i : Nat) : Nat :=
  Color.chan (img.pixels.getD (i / 3) ⟨0, 0, 0⟩) (i % 3)

/-- All channel bytes of the buffer are genuine 8-bit values. -/
def Image.channelsValid (img : Image) : Prop :=
  ∀ c ∈ img.pixels, c.r < 256 ∧ c.g < 256 ∧ c.b < 256

instance (img : Image) : Decidable img.channelsValid := by
  unfold Image.channelsValid; infer_instance

/-- The x coordinate of slot `i`, as §4.2 of the design states it:
`pixelIndex = i / 3`, `x = pixelIndex mod W`. -/
def slotX (W i : Nat) : Nat := (i / 3) % W

/-- The y coordinate of slot `i`, as §4.2 of the design states it:
`y = pixelIndex / W` with integer division. -/
def slotY (W i : Nat) : Nat := (i / 3) / W

/-- The channel of slot `i`, as §4.2 of the design states it:
`channel = i mod 3`, numbered red = 0, green = 1, blue = 2. -/
def slotChan (i : Nat) : Nat := i % 3

/-- Concrete 5 × 4 carrier (capacity 60 slots) used to instantiate the
universally quantified theorems below on a concrete input. -/
def sampleImage : Image := ⟨5, 4, List.replicate 20 ⟨7, 200, 33⟩⟩

/-! ### Basic lemmas about the bit helpers -/

lemma extractBit_embedBit (c : Nat) (b : Bool) : extractBit (embedBit c b) = b := by
  cases b with
  | true =>
    have h : (c ||| 1) &&& 1 = 1 := by
      rw [Nat.and_one_is_mod]
      rcases Nat.or_mod_two_eq_one (a := c) (b := 1) |>.mpr (Or.inr rfl) with h
      exact h
    simp [extractBit, embedBit, h]
  | false =>
    have h : (c &&& 0xFE) &&& 1 = 0 := by
      rw [Nat.and_assoc]
      norm_num
    simp [extractBit, embedBit, h]

lemma bitOf_eq_testBit (v i : Nat) : bitOf v i = Nat.testBit v i := by
  simp [bitOf, Nat.testBit, Nat.and_one_is_mod, Nat.one_and_eq_mod_two]

set_option maxRecDepth 4096 in
lemma embedBit_div_two (c : Nat) (hc : c < 256) (b : Bool) :
    embedBit c b / 2 = c / 2 := by
  revert b
  revert hc
  revert c
  decide

set_option maxRecDepth 4096 in
lemma embedBit_lt_256 (c : Nat) (hc : c < 256) (b : Bool) : embedBit c b < 256 := by
  revert b
  revert hc
  revert c
  decide

/-! ### Slot addressing

The traversal maps slot `i` to pixel coordinates whose flat index
`x + y * W` is exactly `i / 3`, so slot `i` addresses channel `i % 3`
of pixel `i / 3` of the row-major buffer. -/

lemma slot_flat_index (W i : Nat) : (i / 3) % W + (i / 3) / W * W = i / 3 := by
  rw [Nat.mul_comm]
  exact Nat.mod_add_div (i / 3) W

lemma extractAt_eq_chanAt (img : Image) (i : Nat) :
    extractAt img i = extractBit (img.chanAt i) := by
  have h3 : i % 3 = 0 ∨ i % 3 = 1 ∨ i % 3 = 2 := by omega
  unfold extractAt Image.chanAt Image.getPixel
  simp only [slot_flat_index]
  rcases h3 with h | h | h <;> rw [h] <;> rfl

lemma chanAt_embedAt (img : Image) (i : Nat) (b : Bool) (j : Nat) :
    (embedAt img i b).chanAt j =
      if j = i ∧ i / 3 < img.pixels.length then embedBit (img.chanAt i) b
      else img.chanAt j := by
  unfold embedAt Image.setPixel Image.getPixel Image.chanAt
  simp only [slot_flat_index]
  by_cases hin : i / 3 < img.pixels.length
  · by_cases hj3 : j / 3 = i / 3
    · have hgd : ∀ c : Color,
          ((img.pixels.set (i / 3) c).getD (j / 3) ⟨0, 0, 0⟩) = c := by
        intro c
        rw [List.getD_eq_getElem?_getD, hj3, List.getElem?_set_self hin]
        rfl
      rw [hgd]
      by_cases hj : j = i
      · subst hj
        simp only [hin, and_self, if_true]
        have h3 : j % 3 = 0 ∨ j % 3 = 1 ∨ j % 3 = 2 := by omega
        rcases h3 with h | h | h <;> rw [h] <;> rfl
      · have hmod : j % 3 ≠ i % 3 := by omega
        simp only [hj, false_and, if_false]
        rw [hj3]
        have h3 : i % 3 = 0 ∨ i % 3 = 1 ∨ i % 3 = 2 := by omega
        have h3j : j % 3 = 0 ∨ j % 3 = 1 ∨ j % 3 = 2 := by omega
        rcases h3 with h | h | h <;> rcases h3j with hj' | hj' | hj' <;>
          rw [h, hj'] <;> first | (exact absurd (hj'.trans h.symm) hmod) | rfl
    · have hj : j ≠ i := by omega
      simp only [hj, false_and, if_false]
      rw [List.getD_eq_getElem?_getD, List.getElem?_set_ne (Ne.symm hj3),
        ← List.getD_eq_getElem?_getD]
  · have hset : ∀ c : Color, img.pixels.set (i / 3) c = img.pixels := fun c =>
      List.set_eq_of_length_le (Nat.le_of_not_lt hin)
    rw [hset]
    simp only [hin, and_false, if_false]

/-! ### Lemmas about `embedBits`

`embedBits` writes each slot `start + k` (for `k < bits.length`) exactly
once, in increasing order, so the final LSB of each written slot is the
bit that was written there, every other slot keeps its channel byte, and
the buffer geometry never changes. -/

lemma embedAt_width (img : Image) (i : Nat) (b : Bool) :
    (embedAt img i b).width = img.width := rfl

lemma embedAt_height (img : Image) (i : Nat) (b : Bool) :
    (embedAt img i b).height = img.height := rfl

lemma embedAt_pixels_length (img : Image) (i : Nat) (b : Bool) :
    (embedAt img i b).pixels.length = img.pixels.length := by
  unfold embedAt Image.setPixel
  simp [List.length_set]

lemma embedBits_width (bits : List Bool) :
    ∀ (img : Image) (start : Nat), (embedBits img start bits).width = img.width := by
  induction bits with
  | nil => intro img start; rfl
  | cons b rest ih => intro img start; rw [embedBits, ih]; rfl

lemma embedBits_height (bits : List Bool) :
    ∀ (img : Image) (start : Nat), (embedBits img start bits).height = img.height := by
  induction bits with
  | nil => intro img start; rfl
  | cons b rest ih => intro img start; rw [embedBits, ih]; rfl

lemma embedBits_pixels_length (bits : List Bool) :
    ∀ (img : Image) (start : Nat),
      (embedBits img start bits).pixels.length = img.pixels.length := by
  induction bits with
  | nil => intro img start; rfl
  | cons b rest ih =>
    intro img start
    rw [embedBits, ih, embedAt_pixels_length]

lemma chanAt_embedBits_lo (bits : List Bool) :
    ∀ (img : Image) (start j : Nat), j < start →
      (embedBits img start bits).chanAt j = img.chanAt j := by
  induction bits with
  | nil => intro img start j _; rfl
  | cons b rest ih =>
    intro img start j hj
    rw [embedBits, ih _ _ _ (Nat.lt_succ_of_lt hj), chanAt_embedAt]
    have : j ≠ start := Nat.ne_of_lt hj
    simp [this]

lemma chanAt_embedBits_hi (bits : List Bool) :
    ∀ (img : Image) (start j : Nat), start + bits.length ≤ j →
      (embedBits img start bits).chanAt j = img.chanAt j := by
  induction bits with
  | nil => intro img start j _; rfl
  | cons b rest ih =>
    intro img start j hj
    rw [List.length_cons] at hj
    rw [embedBits, ih _ _ _ (by omega), chanAt_embedAt]
    have : j ≠ start := by omega
    simp [this]

lemma extractAt_embedBits (bits : List Bool) :
    ∀ (img : Image) (start k : Nat), k < bits.length →
      (start + k) / 3 < img.pixels.length →
      extractAt (embedBits img start bits) (start + k) = bits.getD k false := by
  induction bits with
  | nil => intro img start k hk _; exact absurd hk (by simp)
  | cons b rest ih =>
    intro img start k hk hin
    match k with
    | 0 =>
      rw [embedBits, extractAt_eq_chanAt,
        chanAt_embedBits_lo rest _ _ _ (by omega), chanAt_embedAt]
      have hin0 : start / 3 < img.pixels.length := by
        simpa using hin
      simp only [Nat.add_zero, hin0, and_self, if_true]
      rw [extractBit_embedBit]
      rfl
    | k + 1 =>
      rw [embedBits]
      have h1 : start + (k + 1) = (start + 1) + k := by omega
      rw [h1]
      rw [ih _ _ _ (by simpa using hk) (by rw [embedAt_pixels_length]; omega)]
      rfl

/-! ### Lemmas about `extractNum` -/

lemma extractNum_zero (img : Image) (start : Nat) : extractNum img start 0 = 0 := rfl

lemma extractNum_succ (img : Image) (start c : Nat) :
    extractNum img start (c + 1) =
      if extractAt img (start + c) then extractNum img start c ||| 1 <<< c
      else extractNum img start c := by
  unfold extractNum
  rw [List.range_succ, List.foldl_append]
  rfl

lemma testBit_extractNum (img : Image) (start c t : Nat) :
    (extractNum img start c).testBit t =
      (decide (t < c) && extractAt img (start + t)) := by
  induction c with
  | zero => simp [extractNum_zero]
  | succ c ih =>
    rw [extractNum_succ]
    by_cases hb : extractAt img (start + c)
    · rw [if_pos hb, Nat.testBit_or, ih]
      have hsl : (1 <<< c).testBit t = decide (c = t) := by
        rw [Nat.shiftLeft_eq, Nat.one_mul, Nat.testBit_two_pow]
      rw [hsl]
      by_cases ht : t = c
      · subst ht
        simp [hb]
      · by_cases htc : t < c <;> simp [htc, ht, Ne.symm ht] <;> omega
    · rw [if_neg hb, ih]
      by_cases ht : t = c
      · subst ht
        simp [hb]
      · by_cases htc : t < c
        · simp [htc, Nat.lt_succ_of_lt htc]
        · have h3 : ¬t < c + 1 := by omega
          simp [htc, h3]

/-! ### Indexing the embedded bitstream -/

lemma getD_append_left {α : Type} (l₁ l₂ : List α) (n : Nat) (d : α)
    (h : n < l₁.length) : (l₁ ++ l₂).getD n d = l₁.getD n d := by
  rw [List.getD_eq_getElem?_getD, List.getElem?_append_left h,
    ← List.getD_eq_getElem?_getD]

lemma getD_append_right {α : Type} (l₁ l₂ : List α) (n : Nat) (d : α)
    (h : l₁.length ≤ n) : (l₁ ++ l₂).getD n d = l₂.getD (n - l₁.length) d := by
  rw [List.getD_eq_getElem?_getD, List.getElem?_append_right h,
    ← List.getD_eq_getElem?_getD]

lemma getD_map_range (f : Nat → Bool) (n k : Nat) (hk : k < n) :
    ((List.range n).map f).getD k false = f k := by
  rw [List.getD_eq_getElem?_getD, List.getElem?_map, List.getElem?_range hk]
  rfl

lemma sizeBits_length (n : Nat) : (sizeBits n).length = 32 := by
  simp [sizeBits]

lemma byteBits_length (d : Nat) : (byteBits d).length = 8 := by
  simp [byteBits]

lemma flatMap_byteBits_length (data : List Nat) :
    (data.flatMap byteBits).length = 8 * data.length := by
  induction data with
  | nil => rfl
  | cons d rest ih =>
    rw [List.flatMap_cons, List.length_append, byteBits_length, ih,
      List.length_cons]
    omega

lemma getD_flatMap_byteBits :
    ∀ (data : List Nat) (j k : Nat), j < data.length → k < 8 →
      (data.flatMap byteBits).getD (8 * j + k) false = bitOf (data.getD j 0) k := by
  intro data
  induction data with
  | nil => intro j k hj _; exact absurd hj (by simp)
  | cons d rest ih =>
    intro j k hj hk
    rw [List.flatMap_cons]
    match j with
    | 0 =>
      rw [getD_append_left _ _ _ _ (by rw [byteBits_length]; omega)]
      simpa [byteBits] using getD_map_range (bitOf d) 8 k hk
    | j + 1 =>
      have hlen : (byteBits d).length ≤ 8 * (j + 1) + k := by
        rw [byteBits_length]; omega
      rw [getD_append_right _ _ _ _ hlen, byteBits_length]
      have hidx : 8 * (j + 1) + k - 8 = 8 * j + k := by omega
      rw [hidx, ih j k (by simpa using hj) hk]
      rfl

/-- The bit that `encode` places at slot `t`: for `t < 32` bit `t` of the
(truncated) size, and for `t = 32 + 8j + k` bit `k` of payload byte `j`. -/
lemma getD_encodeStream_size (n : Nat) (rest : List Bool) (t : Nat) (ht : t < 32) :
    (sizeBits n ++ rest).getD t false = Nat.testBit n t := by
  rw [getD_append_left _ _ _ _ (by rw [sizeBits_length]; omega)]
  rw [sizeBits, getD_map_range _ _ _ ht, bitOf_eq_testBit]

lemma getD_encodeStream_payload (n : Nat) (data : List Nat) (j k : Nat)
    (hj : j < data.length) (hk : k < 8) :
    (sizeBits n ++ data.flatMap byteBits).getD (32 + 8 * j + k) false =
      Nat.testBit (data.getD j 0) k := by
  have hlen : (sizeBits n).length ≤ 32 + 8 * j + k := by
    rw [sizeBits_length]; omega
  rw [getD_append_right _ _ _ _ hlen, sizeBits_length]
  have hidx : 32 + 8 * j + k - 32 = 8 * j + k := by omega
  rw [hidx, getD_flatMap_byteBits data j k hj hk, bitOf_eq_testBit]

/-! ### Reading back the encoded image -/

/-- What `extractAt` sees on the image produced by a successful `encode`:
slot `t` of the mutated buffer holds bit `t` of the embedded bitstream,
for every slot the buffer actually contains. -/
lemma extractAt_encoded (img : Image) (bits : List Bool) (t : Nat)
    (ht : t < bits.length) (hin : t < 3 * img.pixels.length) :
    extractAt (embedBits img 0 bits) t = bits.getD t false := by
  have hdiv : (0 + t) / 3 < img.pixels.length := by
    rw [Nat.zero_add]
    rw [Nat.div_lt_iff_lt_mul (by omega)]
    omega
  simpa using extractAt_embedBits bits img 0 t ht hdiv

/-- Reading the 32-bit size back from an encoded image returns exactly the
embedded (truncated) size. -/
lemma extractNum_encoded_size (img : Image) (data : List Nat)
    (hcap : 32 ≤ 3 * img.pixels.length) :
    extractNum (embedBits img 0 (sizeBits (data.length % 2 ^ 32) ++
      data.flatMap byteBits)) 0 32 = data.length % 2 ^ 32 := by
  set n := data.length % 2 ^ 32 with hn
  have hnlt : n < 2 ^ 32 := Nat.mod_lt _ (by norm_num)
  apply Nat.eq_of_testBit_eq
  intro t
  rw [testBit_extractNum]
  by_cases ht : t < 32
  · have hlen : t < (sizeBits n ++ data.flatMap byteBits).length := by
      rw [List.length_append, sizeBits_length]; omega
    rw [Nat.zero_add, extractAt_encoded _ _ _ hlen (by omega),
      getD_encodeStream_size _ _ _ ht]
    simp [ht]
  · have h1 : Nat.testBit n t = false :=
      Nat.testBit_lt_two_pow
        (Nat.lt_of_lt_of_le hnlt (Nat.pow_le_pow_right (by omega) (by omega)))
    simp [ht, h1]

/-- Reading payload byte `j` back from an encoded image returns exactly
payload byte `j`, provided it is a genuine byte. -/
lemma extractNum_encoded_byte (img : Image) (data : List Nat) (j : Nat)
    (hj : j < data.length) (hbyte : data.getD j 0 < 256)
    (hcap : 32 + 8 * data.length ≤ 3 * img.pixels.length) :
    extractNum (embedBits img 0 (sizeBits (data.length % 2 ^ 32) ++
      data.flatMap byteBits)) (32 + 8 * j) 8 = data.getD j 0 := by
  apply Nat.eq_of_testBit_eq
  intro t
  rw [testBit_extractNum]
  by_cases ht : t < 8
  · have hlen : 32 + 8 * j + t <
        (sizeBits (data.length % 2 ^ 32) ++ data.flatMap byteBits).length := by
      rw [List.length_append, sizeBits_length, flatMap_byteBits_length]; omega
    rw [extractAt_encoded _ _ _ hlen (by omega),
      getD_encodeStream_payload _ _ _ _ hj ht]
    simp [ht]
  · have h1 : Nat.testBit (data.getD j 0) t = false :=
      Nat.testBit_lt_two_pow
        (Nat.lt_of_lt_of_le hbyte (by
          calc (256 : Nat) = 2 ^ 8 := by norm_num
          _ ≤ 2 ^ t := Nat.pow_le_pow_right (by omega) (by omega)))
    rw [h1]
    simp [ht]

/-! ### Channel-byte validity and the high seven bits -/

lemma getD_valid (img : Image) (h : img.channelsValid) (n : Nat) :
    (img.pixels.getD n ⟨0, 0, 0⟩).r < 256 ∧
    (img.pixels.getD n ⟨0, 0, 0⟩).g < 256 ∧
    (img.pixels.getD n ⟨0, 0, 0⟩).b < 256 := by
  by_cases hin : n < img.pixels.length
  · have hmem : img.pixels.getD n ⟨0, 0, 0⟩ ∈ img.pixels := by
      rw [List.getD_eq_getElem?_getD, List.getElem?_eq_getElem hin]
      exact List.getElem_mem hin
    exact h _ hmem
  · rw [List.getD_eq_getElem?_getD, List.getElem?_eq_none (Nat.le_of_not_lt hin)]
    refine ⟨by norm_num, by norm_num, by norm_num⟩

lemma chanAt_lt_256 (img : Image) (h : img.channelsValid) (i : Nat) :
    img.chanAt i < 256 := by
  unfold Image.chanAt
  have hv := getD_valid img h (i / 3)
  have h3 : i % 3 = 0 ∨ i % 3 = 1 ∨ i % 3 = 2 := by omega
  rcases h3 with h3 | h3 | h3 <;> rw [h3]
  · exact hv.1
  · exact hv.2.1
  · exact hv.2.2

lemma channelsValid_embedAt (img : Image) (i : Nat) (b : Bool)
    (h : img.channelsValid) : (embedAt img i b).channelsValid := by
  unfold embedAt Image.setPixel Image.getPixel Image.channelsValid
  intro c hc
  rcases List.mem_or_eq_of_mem_set hc with hmem | heq
  · exact h _ hmem
  · subst heq
    have hv := getD_valid img h ((i / 3) % img.width + (i / 3) / img.width * img.width)
    have h3 : i % 3 = 0 ∨ i % 3 = 1 ∨ i % 3 = 2 := by omega
    rcases h3 with h3 | h3 | h3 <;> rw [h3] <;>
      exact ⟨by first | exact embedBit_lt_256 _ hv.1 b | exact hv.1,
        by first | exact embedBit_lt_256 _ hv.2.1 b | exact hv.2.1,
        by first | exact embedBit_lt_256 _ hv.2.2 b | exact hv.2.2⟩

lemma channelsValid_embedBits (bits : List Bool) :
    ∀ (img : Image) (start : Nat), img.channelsValid →
      (embedBits img start bits).channelsValid := by
  induction bits with
  | nil => intro img start h; exact h
  | cons b rest ih =>
    intro img start h
    exact ih _ _ (channelsValid_embedAt img start b h)

/-- The encoder only ever touches the least-significant bit of a channel
byte: the high seven bits of every slot survive `embedBits` unchanged. -/
lemma chanAt_embedBits_div_two (bits : List Bool) :
    ∀ (img : Image) (start : Nat), img.channelsValid → ∀ j,
      (embedBits img start bits).chanAt j / 2 = img.chanAt j / 2 := by
  induction bits with
  | nil => intro img start _ j; rfl
  | cons b rest ih =>
    intro img start h j
    rw [embedBits, ih _ _ (channelsValid_embedAt img start b h), chanAt_embedAt]
    by_cases hj : j = start ∧ start / 3 < img.pixels.length
    · rw [if_pos hj, hj.1, embedBit_div_two _ (chanAt_lt_256 img h start)]
    · rw [if_neg hj]

/-! ### Unfolded forms of the four top-level functions -/

lemma encode_eq (img : Image) (data : List Nat) :
    encode img data =
      if img.width * img.height * 3 < 32 + data.length % 2 ^ 32 * 8 then
        EncodeResult.insufficientCapacity
      else
        EncodeResult.ok (embedBits img 0
          (sizeBits (data.length % 2 ^ 32) ++ data.flatMap byteBits)) := rfl

lemma decode_eq (img : Image) :
    decode img =
      if extractNum img 0 32 * 8 + 32 > img.width * img.height * 3 then
        DecodeResult.invalidLength
      else if extractNum img 0 32 = 0 then
        DecodeResult.emptyPayload
      else
        DecodeResult.ok ((List.range (extractNum img 0 32)).map
          (fun j => extractNum img (32 + 8 * j) 8)) := rfl

lemma encodeWrites_eq (img : Image) (data : List Nat) :
    encodeWrites img data =
      if img.width * img.height * 3 < 32 + data.length % 2 ^ 32 * 8 then []
      else List.range (32 + 8 * data.length) := rfl

lemma decodeAccesses_eq (img : Image) :
    decodeAccesses img =
      List.range 32 ++
        (if extractNum img 0 32 * 8 + 32 > img.width * img.height * 3 then []
         else if extractNum img 0 32 = 0 then []
         else (List.range (8 * extractNum img 0 32)).map (fun j => 32 + j)) := rfl

/-! ### The claims -/

/-- C8.  Bit packing: for every 8-bit channel byte `b` and bit `v`,
`embedBit b v` equals `(b &&& 0xFE) ||| v`, leaves the top 7 bits of `b`
unchanged (in particular `embedBit 0xFE 1 = 0xFF` and
`embedBit 0xFF 0 = 0xFE`), `extractBit b` equals `b &&& 1`, and
`extractBit (embedBit b v) = v`.  Both functions are total by
construction. -/
theorem embedBit_extractBit_contract :
    ∀ b : Nat, b < 256 → ∀ v : Bool,
      embedBit b v = (b &&& 0xFE) ||| v.toNat ∧
      extractBit b = decide (b &&& 1 = 1) ∧
      embedBit b v / 2 = b / 2 ∧
      extractBit (embedBit b v) = v ∧
      embedBit 0xFE true = 0xFF ∧
      embedBit 0xFF false = 0xFE := by
  decide

theorem embedBit_extractBit_contract_witness :
    embedBit 254 true = (254 &&& 0xFE) ||| Bool.toNat true ∧
    extractBit 254 = decide (254 &&& 1 = 1) ∧
    embedBit 254 true / 2 = 254 / 2 ∧
    extractBit (embedBit 254 true) = true ∧
    embedBit 0xFE true = 0xFF ∧
    embedBit 0xFF false = 0xFE :=
  embedBit_extractBit_contract 254 (by decide) true

/-- C3.  Bit traversal: for every slot index `i`, both the decoder's
reader (`extractAt`) and the encoder's writer (`embedAt`) address pixel
`x = (i / 3) mod W`, `y = (i / 3) / W` and channel `i mod 3` (red = 0,
green = 1, blue = 2): the reader returns the LSB of exactly that channel
of that pixel, and the writer replaces exactly that channel of that pixel
with `embedBit` of its current value.  Both loops advance the cursor by
one per bit from 0, so encode and decode traverse the identical,
deterministic slot sequence for a given `(W, H)`. -/
theorem traversal_formula (img : Image) (i : Nat) (b : Bool) :
    extractAt img i =
      extractBit (Color.chan
        (img.getPixel (slotX img.width i) (slotY img.width i)) (slotChan i)) ∧
    embedAt img i b =
      img.setPixel (slotX img.width i) (slotY img.width i)
        (Color.setChan
          (img.getPixel (slotX img.width i) (slotY img.width i)) (slotChan i)
          (embedBit (Color.chan
            (img.getPixel (slotX img.width i) (slotY img.width i)) (slotChan i)) b)) := by
  have h3 : i % 3 = 0 ∨ i % 3 = 1 ∨ i % 3 = 2 := by omega
  constructor
  · unfold extractAt slotX slotY slotChan
    rcases h3 with h | h | h <;> rw [h] <;> rfl
  · unfold embedAt Image.setPixel slotX slotY slotChan Color.setChan Color.chan
    rcases h3 with h | h | h <;> rw [h] <;> rfl

/-- C2.  Capacity check: for a payload within the 32-bit data-model bound,
encoding succeeds exactly when `32 + 8·n ≤ W·H·3` (so equality succeeds
and one bit more fails with `InsufficientCapacity`), and on failure no
slot is ever written — the check precedes both embedding loops. -/
theorem encode_capacity_check (img : Image) (data : List Nat)
    (hW : 1 ≤ img.width) (hH : 1 ≤ img.height)
    (hlen : data.length < 2 ^ 32) :
    ((∃ out, encode img data = EncodeResult.ok out) ↔
      32 + 8 * data.length ≤ img.width * img.height * 3) ∧
    (encode img data = EncodeResult.insufficientCapacity →
      encodeWrites img data = []) := by
  have hmod : data.length % 2 ^ 32 = data.length := Nat.mod_eq_of_lt hlen
  rw [encode_eq, encodeWrites_eq, hmod]
  by_cases hc : img.width * img.height * 3 < 32 + data.length * 8
  · rw [if_pos hc, if_pos hc]
    refine ⟨⟨fun ⟨out, h⟩ => by simp at h, fun h => by omega⟩, fun _ => rfl⟩
  · rw [if_neg hc, if_neg hc]
    refine ⟨⟨fun _ => by omega, fun _ => ⟨_, rfl⟩⟩, fun h => by simp at h⟩

theorem encode_capacity_check_witness :
    ((∃ out, encode sampleImage [1, 2, 3] = EncodeResult.ok out) ↔
      32 + 8 * ([1, 2, 3] : List Nat).length ≤
        sampleImage.width * sampleImage.height * 3) ∧
    (encode sampleImage [1, 2, 3] = EncodeResult.insufficientCapacity →
      encodeWrites sampleImage [1, 2, 3] = []) :=
  encode_capacity_check sampleImage [1, 2, 3] (by decide) (by decide) (by decide)

/-- C6.  Invalid length rejection: decode fails with `InvalidLength`
exactly when the 32-bit value `n` assembled from the first 32 slot LSBs
satisfies `32 + 8·n > W·H·3`, and in that case the payload loop never
runs — only the 32 header slots are read. -/
theorem decode_invalid_length (img : Image)
    (hW : 1 ≤ img.width) (hH : 1 ≤ img.height) :
    (decode img = DecodeResult.invalidLength ↔
      img.width * img.height * 3 < 32 + extractNum img 0 32 * 8) ∧
    (img.width * img.height * 3 < 32 + extractNum img 0 32 * 8 →
      decodeAccesses img = List.range 32) := by
  rw [decode_eq, decodeAccesses_eq]
  by_cases hc : extractNum img 0 32 * 8 + 32 > img.width * img.height * 3
  · rw [if_pos hc, if_pos hc]
    exact ⟨⟨fun _ => by omega, fun _ => rfl⟩, fun _ => by simp⟩
  · rw [if_neg hc, if_neg hc]
    constructor
    · constructor
      · intro h
        by_cases h0 : extractNum img 0 32 = 0
        · rw [if_pos h0] at h; simp at h
        · rw [if_neg h0] at h; simp at h
      · intro h; omega
    · intro h; omega

theorem decode_invalid_length_witness :
    (decode sampleImage = DecodeResult.invalidLength ↔
      sampleImage.width * sampleImage.height * 3 <
        32 + extractNum sampleImage 0 32 * 8) ∧
    (sampleImage.width * sampleImage.height * 3 <
        32 + extractNum sampleImage 0 32 * 8 →
      decodeAccesses sampleImage = List.range 32) :=
  decode_invalid_length sampleImage (by decide) (by decide)

/-- C1.  Round-trip: for every pixel buffer whose capacity holds the
header and the payload, and every payload of bytes (length within the
32-bit data-model bound), decoding the encoded buffer recovers exactly
the original payload bytes in order — surfaced through the
`EmptyPayload` informational outcome (with an empty byte sequence) when
the payload has length zero. -/
theorem encode_decode_roundtrip (img : Image) (data : List Nat)
    (hWF : img.pixels.length = img.width * img.height)
    (hlen : data.length < 2 ^ 32)
    (hbytes : ∀ b ∈ data, b < 256)
    (hcap : 32 + 8 * data.length ≤ img.width * img.height * 3) :
    ∃ out, encode img data = EncodeResult.ok out ∧
      decode out = if data = [] then DecodeResult.emptyPayload
                   else DecodeResult.ok data := by
  have hmod : data.length % 2 ^ 32 = data.length := Nat.mod_eq_of_lt hlen
  have h313 : 3 * (img.width * img.height) = img.width * img.height * 3 := by ring
  have hcap3 : 32 + 8 * data.length ≤ 3 * img.pixels.length := by
    rw [hWF]; omega
  refine ⟨embedBits img 0 (sizeBits (data.length % 2 ^ 32) ++ data.flatMap byteBits),
    ?_, ?_⟩
  · rw [encode_eq, if_neg (by rw [hmod]; omega)]
  · set out := embedBits img 0 (sizeBits (data.length % 2 ^ 32) ++ data.flatMap byteBits)
      with hout
    have hsize : extractNum out 0 32 = data.length := by
      rw [hout, extractNum_encoded_size img data (by omega), hmod]
    have hWH : out.width * out.height = img.width * img.height := by
      rw [hout, embedBits_width, embedBits_height]
    rw [decode_eq, hsize, hWH]
    by_cases h0 : data = []
    · subst h0
      simp only [List.length_nil]
      rw [if_neg (by omega)]
      simp
    · have h0' : data.length ≠ 0 := fun h => h0 (List.length_eq_zero.mp h)
      rw [if_neg (by omega), if_neg h0', if_neg h0]
      congr 1
      apply List.ext_getElem
      · simp
      · intro j hj1 hj2
        have hj : j < data.length := hj2
        rw [List.getElem_map, List.getElem_range]
        have hgetD : data.getD j 0 = data[j] := by
          rw [List.getD_eq_getElem?_getD, List.getElem?_eq_getElem hj]; rfl
        have hbyte : data.getD j 0 < 256 := by
          rw [hgetD]; exact hbytes _ (List.getElem_mem hj)
        rw [hout, extractNum_encoded_byte img data j hj hbyte hcap3, hgetD]

theorem encode_decode_roundtrip_witness :
    ∃ out, encode sampleImage [65, 66] = EncodeResult.ok out ∧
      decode out = if ([65, 66] : List Nat) = [] then DecodeResult.emptyPayload
                   else DecodeResult.ok [65, 66] :=
  encode_decode_roundtrip sampleImage [65, 66] (by decide) (by decide)
    (by decide) (by decide)

/-- C4.  Wire layout: a successful encode of an `n`-byte payload places
bit `i` of the 32-bit length value at slot `i` (for `i < 32`,
least-significant bit first) and bit `k` of payload byte `j` at slot
`32 + 8·j + k`, in traversal order. -/
theorem encode_wire_layout (img : Image) (data : List Nat)
    (hWF : img.pixels.length = img.width * img.height)
    (hlen : data.length < 2 ^ 32)
    (hcap : 32 + 8 * data.length ≤ img.width * img.height * 3) :
    ∃ out, encode img data = EncodeResult.ok out ∧
      (∀ i < 32, extractAt out i = Nat.testBit data.length i) ∧
      (∀ j < data.length, ∀ k < 8,
        extractAt out (32 + 8 * j + k) = Nat.testBit (data.getD j 0) k) := by
  have hmod : data.length % 2 ^ 32 = data.length := Nat.mod_eq_of_lt hlen
  have h313 : 3 * (img.width * img.height) = img.width * img.height * 3 := by ring
  have hcap3 : 32 + 8 * data.length ≤ 3 * img.pixels.length := by
    rw [hWF]; omega
  have hstream : (sizeBits (data.length % 2 ^ 32) ++ data.flatMap byteBits).length =
      32 + 8 * data.length := by
    rw [List.length_append, sizeBits_length, flatMap_byteBits_length]
  refine ⟨embedBits img 0 (sizeBits (data.length % 2 ^ 32) ++ data.flatMap byteBits),
    by rw [encode_eq, if_neg (by rw [hmod]; omega)], ?_, ?_⟩
  · intro i hi
    rw [extractAt_encoded _ _ _ (by omega) (by omega),
      getD_encodeStream_size _ _ _ hi, hmod]
  · intro j hj k hk
    rw [extractAt_encoded _ _ _ (by omega) (by omega),
      getD_encodeStream_payload _ _ _ _ hj hk]

theorem encode_wire_layout_witness :
    ∃ out, encode sampleImage [65] = EncodeResult.ok out ∧
      (∀ i < 32, extractAt out i = Nat.testBit ([65] : List Nat).length i) ∧
      (∀ j < ([65] : List Nat).length, ∀ k < 8,
        extractAt out (32 + 8 * j + k) =
          Nat.testBit (([65] : List Nat).getD j 0) k) :=
  encode_wire_layout sampleImage [65] (by decide) (by decide) (by decide)

/-- C5.  Encoder frame effect: a successful encode of an `n`-byte payload
performs exactly `32 + 8·n` slot writes, may change only the
least-significant bits of slots `0 .. 32 + 8·n - 1`, and leaves the high
seven bits of every channel byte, every slot at index `≥ 32 + 8·n`, and
the buffer dimensions unchanged. -/
theorem encode_frame_effect (img : Image) (data : List Nat)
    (hWF : img.pixels.length = img.width * img.height)
    (hvalid : img.channelsValid)
    (hlen : data.length < 2 ^ 32)
    (hcap : 32 + 8 * data.length ≤ img.width * img.height * 3) :
    ∃ out, encode img data = EncodeResult.ok out ∧
      out.width = img.width ∧ out.height = img.height ∧
      out.pixels.length = img.pixels.length ∧
      (∀ j, 32 + 8 * data.length ≤ j → out.chanAt j = img.chanAt j) ∧
      (∀ j, out.chanAt j / 2 = img.chanAt j / 2) ∧
      encodeWrites img data = List.range (32 + 8 * data.length) := by
  have hmod : data.length % 2 ^ 32 = data.length := Nat.mod_eq_of_lt hlen
  have hstream : (sizeBits (data.length % 2 ^ 32) ++ data.flatMap byteBits).length =
      32 + 8 * data.length := by
    rw [List.length_append, sizeBits_length, flatMap_byteBits_length]
  refine ⟨embedBits img 0 (sizeBits (data.length % 2 ^ 32) ++ data.flatMap byteBits),
    by rw [encode_eq, if_neg (by rw [hmod]; omega)],
    embedBits_width _ _ _, embedBits_height _ _ _, embedBits_pixels_length _ _ _,
    ?_, ?_, ?_⟩
  · intro j hj
    exact chanAt_embedBits_hi _ _ _ _ (by omega)
  · intro j
    exact chanAt_embedBits_div_two _ _ _ hvalid j
  · rw [encodeWrites_eq, if_neg (by rw [hmod]; omega)]

theorem encode_frame_effect_witness :
    ∃ out, encode sampleImage [65] = EncodeResult.ok out ∧
      out.width = sampleImage.width ∧ out.height = sampleImage.height ∧
      out.pixels.length = sampleImage.pixels.length ∧
      (∀ j, 32 + 8 * ([65] : List Nat).length ≤ j →
        out.chanAt j = sampleImage.chanAt j) ∧
      (∀ j, out.chanAt j / 2 = sampleImage.chanAt j / 2) ∧
      encodeWrites sampleImage [65] =
        List.range (32 + 8 * ([65] : List Nat).length) :=
  encode_frame_effect sampleImage [65] (by decide) (by decide) (by decide)
    (by decide)

/-- C9.  Empty payload: encoding a zero-length payload into any buffer
with at least 32 slots succeeds, writes only the 32-bit all-zero header
(the LSBs of slots `0..31` become 0, every slot `≥ 32` and all high bits
are untouched), and decoding the result yields the `EmptyPayload`
outcome — the non-error informational result carrying an empty byte
sequence (main.cpp line 142 returns a warning, not an error). -/
theorem encode_empty_payload (img : Image)
    (hWF : img.pixels.length = img.width * img.height)
    (hvalid : img.channelsValid)
    (hcap : 32 ≤ img.width * img.height * 3) :
    ∃ out, encode img [] = EncodeResult.ok out ∧
      (∀ j < 32, extractAt out j = false) ∧
      (∀ j, 32 ≤ j → out.chanAt j = img.chanAt j) ∧
      (∀ j, out.chanAt j / 2 = img.chanAt j / 2) ∧
      decode out = DecodeResult.emptyPayload := by
  have h313 : 3 * (img.width * img.height) = img.width * img.height * 3 := by ring
  have hcap3 : 32 ≤ 3 * img.pixels.length := by rw [hWF]; omega
  have hstream : ((sizeBits (([] : List Nat).length % 2 ^ 32)) ++
      ([] : List Nat).flatMap byteBits).length = 32 := by
    rw [List.length_append, sizeBits_length]
    rfl
  refine ⟨embedBits img 0 (sizeBits (([] : List Nat).length % 2 ^ 32) ++
      ([] : List Nat).flatMap byteBits),
    by rw [encode_eq, if_neg (by simp; omega)], ?_, ?_, ?_, ?_⟩
  · intro j hj
    rw [extractAt_encoded _ _ _ (by omega) (by omega),
      getD_encodeStream_size _ _ _ hj]
    simp
  · intro j hj
    exact chanAt_embedBits_hi _ _ _ _ (by omega)
  · intro j
    exact chanAt_embedBits_div_two _ _ _ hvalid j
  · set out := embedBits img 0 (sizeBits (([] : List Nat).length % 2 ^ 32) ++
      ([] : List Nat).flatMap byteBits) with hout
    have hsize : extractNum out 0 32 = 0 := by
      rw [hout, extractNum_encoded_size img [] (by omega)]
      rfl
    have hWH : out.width * out.height = img.width * img.height := by
      rw [hout, embedBits_width, embedBits_height]
    rw [decode_eq, hsize, hWH, if_neg (by omega), if_pos rfl]

theorem encode_empty_payload_witness :
    ∃ out, encode sampleImage [] = EncodeResult.ok out ∧
      (∀ j < 32, extractAt out j = false) ∧
      (∀ j, 32 ≤ j → out.chanAt j = sampleImage.chanAt j) ∧
      (∀ j, out.chanAt j / 2 = sampleImage.chanAt j / 2) ∧
      decode out = DecodeResult.emptyPayload :=
  encode_empty_payload sampleImage (by decide) (by decide) (by decide)

/-- C10.  Implicit length truncation: `uint32_t secretSize =
secretData.size()` stores the payload length modulo `2^32`, so both the
embedded header value and the quantity compared against the capacity are
computed from `L mod 2^32` — while the embedding loop still iterates over
all `L` payload bytes.  For `L ≤ 2^32 - 1` the truncated value coincides
with the true length. -/
theorem encode_length_truncation (img : Image) (data : List Nat)
    (hWF : img.pixels.length = img.width * img.height) :
    ((∃ out, encode img data = EncodeResult.ok out) ↔
      32 + 8 * (data.length % 2 ^ 32) ≤ img.width * img.height * 3) ∧
    (∀ out, encode img data = EncodeResult.ok out →
      (∀ i < 32, extractAt out i = Nat.testBit (data.length % 2 ^ 32) i) ∧
      encodeWrites img data = List.range (32 + 8 * data.length)) ∧
    (data.length < 2 ^ 32 → data.length % 2 ^ 32 = data.length) := by
  have h313 : 3 * (img.width * img.height) = img.width * img.height * 3 := by ring
  refine ⟨?_, ?_, fun h => Nat.mod_eq_of_lt h⟩
  · rw [encode_eq]
    by_cases hc : img.width * img.height * 3 < 32 + data.length % 2 ^ 32 * 8
    · rw [if_pos hc]
      exact ⟨fun ⟨out, h⟩ => by simp at h, fun h => by omega⟩
    · rw [if_neg hc]
      exact ⟨fun _ => by omega, fun _ => ⟨_, rfl⟩⟩
  · intro out hok
    rw [encode_eq] at hok
    by_cases hc : img.width * img.height * 3 < 32 + data.length % 2 ^ 32 * 8
    · rw [if_pos hc] at hok
      simp at hok
    · rw [if_neg hc] at hok
      have hcap3 : 32 ≤ 3 * img.pixels.length := by rw [hWF]; omega
      refine ⟨?_, by rw [encodeWrites_eq, if_neg hc]⟩
      intro i hi
      have hout : out = embedBits img 0
          (sizeBits (data.length % 2 ^ 32) ++ data.flatMap byteBits) := by
        cases hok
        rfl
      have hstream : i < (sizeBits (data.length % 2 ^ 32) ++
          data.flatMap byteBits).length := by
        rw [List.length_append, sizeBits_length]; omega
      rw [hout, extractAt_encoded _ _ _ hstream (by omega),
        getD_encodeStream_size _ _ _ hi]

theorem encode_length_truncation_witness :
    ((∃ out, encode sampleImage [65] = EncodeResult.ok out) ↔
      32 + 8 * (([65] : List Nat).length % 2 ^ 32) ≤
        sampleImage.width * sampleImage.height * 3) ∧
    (∀ out, encode sampleImage [65] = EncodeResult.ok out →
      (∀ i < 32, extractAt out i =
        Nat.testBit (([65] : List Nat).length % 2 ^ 32) i) ∧
      encodeWrites sampleImage [65] =
        List.range (32 + 8 * ([65] : List Nat).length)) ∧
    (([65] : List Nat).length < 2 ^ 32 →
      ([65] : List Nat).length % 2 ^ 32 = ([65] : List Nat).length) :=
  encode_length_truncation sampleImage [65] (by decide)

/-- C7 (as amended).  Slot bounds: every slot the encoder writes lies
below `W·H·3` whenever the payload length is within the 32-bit data-model
bound (the capacity check guarantees it; with no writes at all on
failure), and every slot the decoder reads lies below `W·H·3` provided
the buffer has at least the 32 header slots.  The original claim's
assertion that decode stays in bounds even when `W·H·3 < 32` is false:
the header loop reads slots `0..31` before any check (see the
counterexample). -/
theorem slot_access_bound (img : Image) (data : List Nat)
    (hW : 1 ≤ img.width) (hH : 1 ≤ img.height)
    (hlen : data.length < 2 ^ 32) :
    (∀ s ∈ encodeWrites img data, s ≤ img.width * img.height * 3 - 1) ∧
    (32 ≤ img.width * img.height * 3 →
      ∀ s ∈ decodeAccesses img, s ≤ img.width * img.height * 3 - 1) := by
  have hmod : data.length % 2 ^ 32 = data.length := Nat.mod_eq_of_lt hlen
  constructor
  · rw [encodeWrites_eq, hmod]
    by_cases hc : img.width * img.height * 3 < 32 + data.length * 8
    · rw [if_pos hc]
      intro s hs
      simp at hs
    · rw [if_neg hc]
      intro s hs
      rw [List.mem_range] at hs
      omega
  · intro hcap s hs
    rw [decodeAccesses_eq] at hs
    rcases List.mem_append.mp hs with hs | hs
    · rw [List.mem_range] at hs
      omega
    · by_cases hc : extractNum img 0 32 * 8 + 32 > img.width * img.height * 3
      · rw [if_pos hc] at hs
        simp at hs
      · rw [if_neg hc] at hs
        by_cases h0 : extractNum img 0 32 = 0
        · rw [if_pos h0] at hs
          simp at hs
        · rw [if_neg h0] at hs
          rcases List.mem_map.mp hs with ⟨j, hj, rfl⟩
          rw [List.mem_range] at hj
          omega

theorem slot_access_bound_witness :
    (∀ s ∈ encodeWrites sampleImage [65],
      s ≤ sampleImage.width * sampleImage.height * 3 - 1) ∧
    (32 ≤ sampleImage.width * sampleImage.height * 3 →
      ∀ s ∈ decodeAccesses sampleImage,
        s ≤ sampleImage.width * sampleImage.height * 3 - 1) :=
  slot_access_bound sampleImage [65] (by decide) (by decide) (by decide)

/-- C7, counterexample to the original claim: on a 1 × 1 buffer
(capacity 3 slots) the decoder's header loop reads slot 31, which exceeds
`W·H·3 - 1 = 2` — decode does access pixels outside the buffer when
`W·H·3 < 32`. -/
theorem slot_access_bound_cex :
    ¬ (∀ s ∈ decodeAccesses ⟨1, 1, [⟨0, 0, 0⟩]⟩,
        s ≤ 1 * 1 * 3 - 1) := by
  decide

end Steganography
